import Mathlib

/-!
Verification of the agcm concurrency core against its specification.

This file gives a shallow embedding of the three components of the
repository's asynchronous fetch/cache/export engine:

* the bulk export engine (`Exporter.ExportCases` and its helpers in the
  `export` package),
* the selection-driven detail-fetch controller of the TUI
  (`Model.checkHighlightChange`, the `debounceTimeoutMsg` and
  `caseDetailLoadedMsg` handlers in `Model.Update`),
* the paginated list loader (`Model.maybeLoadMoreCases` and the
  `casesLoadedMsg` handler).

Pure control flow is translated into Lean functions; the concurrent parts
are modelled either by an explicit small-step transition relation (the
semaphore discipline of the worker pool) or by making the nondeterministic
completion order an explicit parameter of an otherwise deterministic run
function (the shared-accumulator updates of the export run, which the Go
code serialises through a mutex / the single Bubble Tea event loop).
-/

namespace Export

/-! ### Data model of the export engine (export package)

`Options`, `Progress`, `Manifest` / `ManifestCase` are translated from
`Options`, `Progress` (exporter file) and `Manifest` / `ManifestCase`
(manifest.go).  Fields irrelevant to the verified claims (paths, formats,
timestamps, debug flags) are omitted; the fields below keep the source
names. -/

/-- One attachment listed for a case: its filename together with the
environment's answer to whether `downloadAttachment` would succeed for
it.  The download outcome is an input of the model because the remote
service is an external collaborator. -/
structure AttachmentInfo where
  filename : String
  downloadOk : Bool
deriving Repr, DecidableEq

/-- The outcome the environment assigns to one export task:
`fetchFail` - `ExportCase` (case / comments / attachments fetch) fails;
`writeFail` - the fetch succeeds but creating the case directory,
formatting, or writing the per-case file fails (these three error paths
all send on `errCh` and return before `manifest.AddCase`);
`ok` - every fallible step of the task body succeeds.
Attachment downloads are deliberately not part of the outcome: their
failure is only logged by the code. -/
inductive TaskOutcome
  | fetchFail
  | writeFail
  | ok
deriving Repr, DecidableEq

/-- One export task: a case identifier plus the data the environment
returns for it and the stipulated outcome. -/
structure ExportTask where
  caseNumber : String
  summary : String
  attachments : List AttachmentInfo
  outcome : TaskOutcome
deriving Repr, DecidableEq

/-- The export configuration fields that influence the verified control
flow, from `Options`. -/
structure ExpOptions where
  combined : Bool
  includeAttachments : Bool
  concurrency : Nat
deriving Repr, DecidableEq

/-- A progress event, from `Progress` (TotalCases, CompletedCases,
CurrentCase, CurrentStep). -/
structure ProgressEv where
  totalCases : Nat
  completedCases : Nat
  currentCase : String
  currentStep : String
deriving Repr, DecidableEq

/-- A manifest entry, from `ManifestCase` in manifest.go. -/
structure ManifestCase where
  caseNumber : String
  summary : String
  attachmentsDownloaded : Nat
deriving Repr, DecidableEq

/-- Whether the task as run by `ExportCases` fails, i.e. sends on `errCh`
and returns early.  A `writeFail` outcome only materialises in
non-combined mode: in combined mode the per-task directory / format /
write steps are skipped entirely (`if !e.opts.Combined`). -/
def taskFails (opts : ExpOptions) (t : ExportTask) : Bool :=
  match t.outcome with
  | .fetchFail => true
  | .writeFail => !opts.combined
  | .ok => false

/-- Whether the task's `ExportCase` fetch succeeds, i.e. the task appends
its result to the shared `exports` slice (which happens before the write
steps). -/
def taskFetched (t : ExportTask) : Bool :=
  match t.outcome with
  | .fetchFail => false
  | _ => true

/-- The progress events one task emits, from the goroutine body of
`ExportCases`: a "Fetching case data" event carrying `idx` as
CompletedCases on entry; one "Downloading f" event per listed attachment
(non-combined mode with IncludeAttachments, when the task got that far);
and a "Complete" event carrying `idx + 1` when the task did not fail.
`idx` is the task's index in the input list, `n` the input length. -/
def taskEvents (opts : ExpOptions) (n : Nat) (idx : Nat) (t : ExportTask) :
    List ProgressEv :=
  ProgressEv.mk n idx t.caseNumber "Fetching case data" ::
    (if taskFails opts t then []
     else
       (if !opts.combined && opts.includeAttachments && !t.attachments.isEmpty then
         t.attachments.map fun a =>
           ProgressEv.mk n idx t.caseNumber ("Downloading " ++ a.filename)
        else []) ++
       [ProgressEv.mk n (idx + 1) t.caseNumber "Complete"])

/-- The warnings one task prints to stderr: one per listed attachment
whose download fails, emitted only when the task reaches the attachment
loop (non-combined, IncludeAttachments, fetch and write succeeded). -/
def taskWarnings (opts : ExpOptions) (t : ExportTask) : List String :=
  if taskFails opts t || opts.combined || !opts.includeAttachments then []
  else (t.attachments.filter fun a => !a.downloadOk).map
    fun a => "failed to download attachment " ++ a.filename

/-- The manifest entry one task contributes via `manifest.AddCase`,
if any: only non-combined tasks that pass every fallible step add an
entry, and the recorded attachment count is `len(export.Attachments)`,
the number of attachments listed for the case. -/
def taskManifest (opts : ExpOptions) (t : ExportTask) : Option ManifestCase :=
  if !opts.combined && !(taskFails opts t) then
    some ⟨t.caseNumber, t.summary, t.attachments.length⟩
  else none

/-- The error one task contributes to `errCh`, if any. -/
def taskError (opts : ExpOptions) (t : ExportTask) : Option String :=
  if taskFails opts t then some ("case " ++ t.caseNumber) else none

/-- The aggregate state `ExportCases` has accumulated once all tasks have
terminated, together with the effects of its epilogue. -/
structure RunResult where
  /-- Contents of the shared `exports` slice, in append order. -/
  exports : List ExportTask
  /-- Errors collected from `errCh`, in send order. -/
  errs : List String
  /-- `manifest.Cases`, in `AddCase` order. -/
  manifestCases : List ManifestCase
  /-- Attachment-download warnings printed to stderr. -/
  warnings : List String
  /-- Whether `manifest.Save` was executed. -/
  manifestSaved : Bool
  /-- The sections (case numbers, in document order) of the combined
  output file, when one was written. -/
  combinedOut : Option (List String)
deriving Repr, DecidableEq

/-- The run of `ExportCases`, parameterised by the order in which the
goroutines perform their (mutex- respectively event-serialised) updates
of the shared accumulators.  `completed` lists the tasks paired with
their input index, in completion order; a caller quantifies over the
permutations of `tasks.enum` to cover all schedules.  The epilogue
(error collection, combined-file write, `manifest.Save`) follows
`wg.Wait()`. -/
def runExport (opts : ExpOptions) (completed : List (Nat × ExportTask)) :
    RunResult :=
  let exports := (completed.filter fun p => taskFetched p.2).map Prod.snd
  let errs := completed.filterMap fun p => taskError opts p.2
  let manifestCases := completed.filterMap fun p => taskManifest opts p.2
  let warnings := (completed.map fun p => taskWarnings opts p.2).flatten
  if errs.isEmpty then
    let combinedOut :=
      if opts.combined && !exports.isEmpty then
        some (exports.map fun t => t.caseNumber)
      else none
    ⟨exports, errs, manifestCases, warnings, true, combinedOut⟩
  else
    ⟨exports, errs, manifestCases, warnings, false, none⟩

/-- The progress-event stream of one serial schedule of the run: the
per-task event sequences concatenated in completion order.  (Running the
tasks one after another is a legal schedule for every concurrency limit
`P ≥ 1`.) -/
def runEvents (opts : ExpOptions) (n : Nat)
    (completed : List (Nat × ExportTask)) : List ProgressEv :=
  (completed.map fun p => taskEvents opts n p.1 p.2).flatten

/-- Whether a sequence of numbers is monotonically non-decreasing. -/
def nondecreasing : List Nat → Bool
  | [] => true
  | [_] => true
  | a :: b :: l => a ≤ b && nondecreasing (b :: l)

end Export

namespace Export

/-! ### Bounded parallelism (semaphore discipline)

`ExportCases` spawns one goroutine per case number; each goroutine first
performs `sem <- struct{}{}` on a channel of capacity
`opts.Concurrency` and releases it (`<-sem`) when it returns, so the
whole fetch / format / write body runs while holding a semaphore slot.
The transition system below is that discipline: a task is `pendingT`
while blocked on the semaphore send, `runningT` between acquire and
release, `doneT` after release. -/

/-- The scheduling state of one export goroutine. -/
inductive TPC
  | pendingT
  | runningT
  | doneT
deriving Repr, DecidableEq

/-- Number of tasks currently holding a semaphore slot. -/
def runningCount (ts : List TPC) : Nat :=
  ts.countP fun pc => pc = TPC.runningT

/-- One scheduler step of the export run with semaphore capacity `P`:
a pending task may acquire a slot only while fewer than `P` tasks hold
one; a running task may finish at any time. -/
inductive SemStep (P : Nat) : List TPC → List TPC → Prop
  | acquire (ts : List TPC) (i : Nat) (hget : ts.get? i = some TPC.pendingT)
      (hsem : runningCount ts < P) :
      SemStep P ts (ts.set i TPC.runningT)
  | release (ts : List TPC) (i : Nat) (hget : ts.get? i = some TPC.runningT) :
      SemStep P ts (ts.set i TPC.doneT)

/-- States reachable during an export run of `n` tasks under semaphore
capacity `P`, starting from all goroutines blocked on the semaphore. -/
inductive SemReach (P : Nat) (n : Nat) : List TPC → Prop
  | init : SemReach P n (List.replicate n TPC.pendingT)
  | step {ts ts' : List TPC} : SemReach P n ts → SemStep P ts ts' →
      SemReach P n ts'

end Export

namespace Tui

/-! ### Detail cache and fetch controller (internal/tui)

Translated from the `Model` fields `highlightedCase`, `pendingFetch`,
`loadingDetail`, `detailCache`, the method `checkHighlightChange`, the
`debounceTimeoutMsg` and `caseDetailLoadedMsg` branches of
`Model.Update`, and `debounceCmd` / `debounceDelay`.  Cached bundles are
abstracted to `Nat` tokens; the cache is an insert-at-front association
list, so a later store for the same key shadows an earlier one exactly
like a Go map assignment.  `fetchesIssued`, `inFlight` and `armCount`
are ghost observations (the `loadCaseDetail` commands dispatched, those
not yet answered, and the number of times a debounce timer was armed);
they record behaviour and influence nothing. -/

/-- The fetch-controller portion of the TUI model. -/
structure FCState where
  highlightedCase : String
  pendingFetch : String
  loadingDetail : Bool
  detailCache : List (String × Nat)
  /-- Case number whose bundle the detail pane currently shows
  (empty string: none). -/
  displayedCase : String
  /-- Bundle token currently displayed. -/
  displayedBundle : Nat
  fetchesIssued : List String
  inFlight : List String
  armCount : Nat
deriving Repr, DecidableEq

/-- The initial controller state: nothing highlighted, nothing pending,
empty cache. -/
def initFC : FCState :=
  ⟨"", "", false, [], "", 0, [], [], 0⟩

/-- Go map read `m.detailCache[newCase]`. -/
def lookupCache (cache : List (String × Nat)) (c : String) : Option Nat :=
  match cache.find? fun p => p.1 = c with
  | some p => some p.2
  | none => none

/-- `Model.checkHighlightChange`, given the case number of the currently
selected row (`selected != nil` is the caller's obligation).  Returns
the new state and, when the debounce timer was (re)armed, the case
number captured by the armed `debounceCmd`. -/
def checkHighlightChange (s : FCState) (newCase : String) :
    FCState × Option String :=
  if newCase = s.highlightedCase then (s, none)
  else
    let s1 := { s with highlightedCase := newCase }
    match lookupCache s1.detailCache newCase with
    | some b => ({ s1 with displayedCase := newCase, displayedBundle := b }, none)
    | none =>
        ({ s1 with pendingFetch := newCase, armCount := s1.armCount + 1 },
         some newCase)

/-- The `debounceTimeoutMsg` branch of `Model.Update`: fetch only if the
message's case number is still the pending case and nonempty. -/
def debounceTimeout (s : FCState) (c : String) : FCState :=
  if c = s.pendingFetch ∧ c ≠ "" then
    { s with pendingFetch := "", loadingDetail := true,
             fetchesIssued := s.fetchesIssued ++ [c],
             inFlight := s.inFlight ++ [c] }
  else s

/-- The `caseDetailLoadedMsg` branch of `Model.Update`: on success the
result is stored in the cache keyed by the case number it was fetched
for, and the displayed bundle is updated only if that case is still the
highlighted one; on error only the status message changes. -/
def caseDetailLoaded (s : FCState) (c : String) (ok : Bool) (b : Nat) :
    FCState :=
  let s1 := { s with loadingDetail := false, inFlight := s.inFlight.erase c }
  if ok then
    let s2 := { s1 with detailCache := (c, b) :: s1.detailCache }
    if c = s2.highlightedCase then
      { s2 with displayedCase := c, displayedBundle := b }
    else s2
  else s1

/-- `debounceDelay = 500 * time.Millisecond`, in milliseconds. -/
def debounceDelay : Nat := 500

/-- An input event of the controller: a selection change (the cursor
moved to row with case number `c`) or the arrival of a fetch result. -/
inductive InEvent
  | select (c : String)
  | result (c : String) (ok : Bool) (b : Nat)
deriving Repr, DecidableEq

/-- Fire, in order, every armed debounce timer already due strictly
before instant `t`; each delivers its `debounceTimeoutMsg`.  Timers are
armed at strictly increasing instants, so the queue is in firing
order. -/
def fireDue (timers : List (Nat × String)) (s : FCState) (t : Nat) :
    FCState × List (Nat × String) :=
  match timers with
  | [] => (s, [])
  | (d, c) :: rest =>
      if d < t then fireDue rest (debounceTimeout s c) t
      else (s, (d, c) :: rest)

/-- Deliver every remaining timer message once the input sequence is
exhausted (the event loop runs until quiescence). -/
def flushTimers (timers : List (Nat × String)) (s : FCState) : FCState :=
  match timers with
  | [] => s
  | (_, c) :: rest => flushTimers rest (debounceTimeout s c)

/-- Process a time-stamped input sequence against the single-threaded
event loop: before an input event at instant `t`, all timer messages due
before `t` are delivered; a `select` may arm a new timer for
`t + debounceDelay`; after the last input the remaining timers fire. -/
def runEvents (evs : List (Nat × InEvent)) (s : FCState)
    (timers : List (Nat × String)) : FCState :=
  match evs with
  | [] => flushTimers timers s
  | (t, ev) :: rest =>
      let fired := fireDue timers s t
      match ev with
      | .select c =>
          let stepped := checkHighlightChange fired.1 c
          match stepped.2 with
          | some armed =>
              runEvents rest stepped.1 (fired.2 ++ [(t + debounceDelay, armed)])
          | none => runEvents rest stepped.1 fired.2
      | .result c ok b => runEvents rest (caseDetailLoaded fired.1 c ok b) fired.2

/-- Run the controller from its initial state. -/
def runFC (evs : List (Nat × InEvent)) : FCState :=
  runEvents evs initFC []

/-- A sequence of selection-change events with their arrival instants. -/
def selEvents (sel : List (Nat × String)) : List (Nat × InEvent) :=
  sel.map fun p => (p.1, InEvent.select p.2)

/-- Accounting invariant of the controller: every issued fetch consumed
one debounce arming, and an armed pending id is worth one more fetch at
most. -/
def fcInv (s : FCState) : Prop :=
  s.fetchesIssued.length + (if s.pendingFetch = "" then 0 else 1) ≤ s.armCount

/-- Whether every selection change of a time-stamped sequence arrives
strictly less than the debounce delay after the previous one. -/
def gapsOk : List (Nat × String) → Bool
  | [] => true
  | [_] => true
  | a :: b :: l => decide (b.1 < a.1 + debounceDelay) && gapsOk (b :: l)

end Tui

namespace Loader

/-! ### Paginated list loader (internal/tui)

Translated from the `Model` fields `cases`, `totalCases`,
`loadingCases`, `sortField`, `sortReverse`, the method
`maybeLoadMoreCases`, the `casesLoadedMsg` branch of `Model.Update`,
`sortCases`, and `loadCasesPage` (`casePageSize = 100`).  The remote
result set is a fixed ordered list `server`; `listCases` answers page
`start` with `(server.drop start).take casePageSize` and reports
`server.length` as the total.  Only the default sort settings reachable
without a user sort action are modelled: `SortByLastModified` with
`sortReverse = true` (set in `NewModel`). -/

/-- A case summary row: identifier and last-modified timestamp. -/
structure LCase where
  caseNumber : String
  lastModified : Nat
deriving Repr, DecidableEq

/-- The list-loader portion of the TUI model. -/
structure LoaderState where
  cases : List LCase
  totalCases : Nat
  loadingCases : Bool
deriving Repr, DecidableEq

/-- `casePageSize = 100`. -/
def casePageSize : Nat := 100

/-- `sortCases` under the default settings (`SortByLastModified`,
`sortReverse = true`): sort by last-modified, descending.  Go's
`sort.Slice` is unstable, so the order of equal keys is unspecified
there; the insertion sort here is one of its admissible outcomes. -/
def sortCases (l : List LCase) : List LCase :=
  l.insertionSort fun a b => b.lastModified ≤ a.lastModified

/-- The `casesLoadedMsg` success branch of `Model.Update` (selection and
scroll-offset bookkeeping omitted): append or replace, update the total
count, then `sortCases`. -/
def casesLoaded (s : LoaderState) (items : List LCase) (totalCount : Nat)
    (app : Bool) : LoaderState :=
  let cs := if app then s.cases ++ items else items
  let total :=
    if 0 < totalCount then totalCount
    else if !app then cs.length
    else s.totalCases
  { cases := sortCases cs, totalCases := total, loadingCases := false }

/-- `Model.maybeLoadMoreCases`: issue a fetch for the next page starting
at `len(m.cases)` only when no load is outstanding, the list is shorter
than the reported total, and the scroll position is within one viewport
of the end of the loaded prefix.  Returns the new state and the start
offset of the issued fetch, if any. -/
def maybeLoadMore (s : LoaderState) (offset visible : Nat) :
    LoaderState × Option Nat :=
  if s.loadingCases then (s, none)
  else if s.totalCases = 0 ∨ s.totalCases ≤ s.cases.length then (s, none)
  else if s.cases.length - 1 ≤ offset + visible then
    ({ s with loadingCases := true }, some s.cases.length)
  else (s, none)

/-- One `maybeLoadMoreCases` call followed (when a fetch was issued) by
the server's `casesLoadedMsg` response for that page.  The
`loadingCases` flag makes page fetches single-flight, so collapsing
issue and response into one step loses no behaviour of a sequence of
such calls. -/
def loadStep (server : List LCase) (s : LoaderState)
    (offset visible : Nat) : LoaderState :=
  match maybeLoadMore s offset visible with
  | (s', some start) =>
      casesLoaded s' ((server.drop start).take casePageSize)
        server.length true
  | (s', none) => s'

/-- `Model.Init`: `loadCasesPage(0, false)` and its response. -/
def initLoad (server : List LCase) : LoaderState :=
  casesLoaded ⟨[], 0, true⟩ (server.take casePageSize) server.length false

/-- A run of the loader: the initial page load followed by any sequence
of `maybeLoadMoreCases` calls at the given scroll positions, under an
unchanged filter. -/
def runLoader (server : List LCase) (steps : List (Nat × Nat)) :
    LoaderState :=
  steps.foldl (fun s p => loadStep server s p.1 p.2) (initLoad server)

end Loader

namespace Export

/-! ### Helper lemmas about the export run -/

/-- Length of a `filterMap` as a count of inputs the function keeps. -/
theorem length_filterMap_eq_countP {α β : Type} (f : α → Option β) :
    ∀ l : List α, (l.filterMap f).length = l.countP fun a => (f a).isSome
  | [] => rfl
  | a :: l => by
    rw [List.filterMap_cons, List.countP_cons]
    cases h : f a <;>
      simp [h, length_filterMap_eq_countP f l, Nat.add_comm]

/-- Keeping or dropping by a predicate partitions the length. -/
theorem countP_add_countP_not {α : Type} (p : α → Bool) :
    ∀ l : List α, l.countP p + l.countP (fun a => !(p a)) = l.length
  | [] => rfl
  | a :: l => by
    rw [List.countP_cons, List.countP_cons]
    cases h : p a <;> simp [h, ← countP_add_countP_not p l] <;> omega

/-- Counting a property of the payload through `enumFrom`. -/
theorem countP_enumFrom {α : Type} (p : α → Bool) :
    ∀ (n : Nat) (l : List α),
      ((l.enumFrom n).countP fun q => p q.2) = l.countP p
  | _, [] => rfl
  | n, a :: l => by
    rw [List.enumFrom_cons, List.countP_cons, List.countP_cons,
      countP_enumFrom p (n + 1) l]

/-- `errCh` receives exactly one error per failing task. -/
theorem errs_length (opts : ExpOptions) (completed : List (Nat × ExportTask)) :
    (runExport opts completed).errs.length
      = completed.countP fun p => taskFails opts p.2 := by
  have hsome : ∀ p : Nat × ExportTask,
      (taskError opts p.2).isSome = taskFails opts p.2 := by
    intro p
    unfold taskError
    cases h : taskFails opts p.2 <;> simp [h]
  have hlen : (completed.filterMap fun p => taskError opts p.2).length
      = completed.countP fun p => taskFails opts p.2 := by
    rw [length_filterMap_eq_countP]
    exact congrFun (congrArg List.countP (funext fun p => hsome p)) completed
  unfold runExport
  cases h : (completed.filterMap fun p => taskError opts p.2).isEmpty <;>
    simpa [h] using hlen

/-- `manifest.AddCase` runs exactly once per non-failing task in
non-combined mode, and never in combined mode. -/
theorem manifestCases_length (opts : ExpOptions)
    (completed : List (Nat × ExportTask)) :
    (runExport opts completed).manifestCases.length
      = if opts.combined then 0
        else completed.countP fun p => !(taskFails opts p.2) := by
  have hsome : ∀ p : Nat × ExportTask,
      (taskManifest opts p.2).isSome
        = (!opts.combined && !(taskFails opts p.2)) := by
    intro p
    unfold taskManifest
    cases hc : opts.combined <;> cases h : taskFails opts p.2 <;> simp [hc, h]
  have hlen : (completed.filterMap fun p => taskManifest opts p.2).length
      = if opts.combined then 0
        else completed.countP fun p => !(taskFails opts p.2) := by
    rw [length_filterMap_eq_countP,
      congrFun (congrArg List.countP (funext fun p => hsome p)) completed]
    cases hc : opts.combined
    · simp [hc]
    · simp [hc, List.countP_eq_zero]
  unfold runExport
  cases h : (completed.filterMap fun p => taskError opts p.2).isEmpty <;>
    simpa [h] using hlen

end Export

namespace Export

/-- Updating one known element shifts a `countP` by the difference of the
two indicator values. -/
theorem countP_set (p : TPC → Bool) :
    ∀ (l : List TPC) (i : Nat) (a b : TPC), l.get? i = some a →
      (l.set i b).countP p + (if p a then 1 else 0)
        = l.countP p + (if p b then 1 else 0)
  | [], i, a, b, h => by simp at h
  | x :: xs, 0, a, b, h => by
    have hxa : x = a := by simpa using h
    subst hxa
    simp only [List.set, List.countP_cons]
    cases hb : p b <;> cases ha : p x <;> simp [hb, ha] <;> omega
  | x :: xs, i + 1, a, b, h => by
    have h' : xs.get? i = some a := by simpa using h
    have := countP_set p xs i a b h'
    simp only [List.set, List.countP_cons]
    cases hx : p x <;> simp [hx] <;> omega

/-- No task runs before the scheduler starts any. -/
theorem runningCount_replicate_pending (n : Nat) :
    runningCount (List.replicate n TPC.pendingT) = 0 := by
  induction n with
  | zero => rfl
  | succ n ih =>
    simpa [runningCount, List.replicate, List.countP_cons]
      using ih

/-- One scheduler step keeps the running count within the semaphore
capacity. -/
theorem semStep_preserve {P : Nat} {ts ts' : List TPC}
    (hstep : SemStep P ts ts') (h : runningCount ts ≤ P) :
    runningCount ts' ≤ P := by
  cases hstep with
  | acquire i hget hsem =>
    have hc := countP_set (fun pc => pc = TPC.runningT) ts i
      TPC.pendingT TPC.runningT hget
    simp only [runningCount] at *
    simp at hc
    omega
  | release i hget =>
    have hc := countP_set (fun pc => pc = TPC.runningT) ts i
      TPC.runningT TPC.doneT hget
    simp only [runningCount] at *
    simp at hc
    omega

/-- Semaphore safety: every reachable scheduler state of the export run
has at most `P` tasks holding a slot. -/
theorem semReach_running_le {P n : Nat} {ts : List TPC}
    (h : SemReach P n ts) : runningCount ts ≤ P := by
  induction h with
  | init => simp [runningCount_replicate_pending]
  | step _ hstep ih => exact semStep_preserve hstep ih

end Export

/-- C2: for every bulk-export run with parallelism limit P >= 1 and N
tasks, at no point during the run are more than P tasks simultaneously
executing their fetch/format/write steps (which the goroutine body
performs entirely between its semaphore acquire and release),
regardless of N. -/
theorem exportCases_bounded_parallelism {P n : Nat} {ts : List Export.TPC}
    (hP : 1 ≤ P) (h : Export.SemReach P n ts) :
    Export.runningCount ts ≤ P :=
  Export.semReach_running_le h

/-- Witness for C2: with P = 1 and N = 3, the state after one task
acquires the semaphore is reachable and has one running task. -/
theorem exportCases_bounded_parallelism_witness :
    Export.runningCount
        ((List.replicate 3 Export.TPC.pendingT).set 0 Export.TPC.runningT)
      ≤ 1 :=
  exportCases_bounded_parallelism (by decide)
    (Export.SemReach.step Export.SemReach.init
      (Export.SemStep.acquire _ 0 (by decide) (by decide)))

/-- C1 (evaluated at the failing input): in combined mode the engine
concatenates the formatted cases in the order the tasks appended their
results, not in input order.  For input [C3, C1, C2] and the legal
schedule in which the tasks for C1, C2, C3 finish in that order, the
combined document's sections come out as [C1, C2, C3] instead of the
claimed [C3, C1, C2]. -/
theorem combined_export_completion_order :
    (Export.runExport ⟨true, false, 4⟩
        [(1, ⟨"C1", "s1", [], .ok⟩), (2, ⟨"C2", "s2", [], .ok⟩),
         (0, ⟨"C3", "s3", [], .ok⟩)]).combinedOut
      = some ["C1", "C2", "C3"] ∧
    List.Perm
      [(1, (⟨"C1", "s1", [], .ok⟩ : Export.ExportTask)),
       (2, ⟨"C2", "s2", [], .ok⟩), (0, ⟨"C3", "s3", [], .ok⟩)]
      (([⟨"C3", "s3", [], .ok⟩, ⟨"C1", "s1", [], .ok⟩,
         ⟨"C2", "s2", [], .ok⟩] : List Export.ExportTask).enum) ∧
    some ["C1", "C2", "C3"] ≠ some ["C3", "C1", "C2"] := by decide

/-- C8 (evaluated at the failing input): the code emits the task's input
index (respectively index + 1 on completion) as CompletedCases, so under
the legal schedule in which the task at input index 1 runs to completion
before the task at index 0 starts, the emitted CompletedCases sequence
is [1, 2, 0, 1] - bounded by totalTasks but not monotonically
non-decreasing. -/
theorem progress_completed_nonmonotone :
    (Export.runEvents ⟨false, false, 4⟩ 2
          [(1, ⟨"B", "sb", [], .ok⟩), (0, ⟨"A", "sa", [], .ok⟩)]).map
        (fun e => e.completedCases) = [1, 2, 0, 1] ∧
    Export.nondecreasing [1, 2, 0, 1] = false ∧
    ∀ e ∈ Export.runEvents ⟨false, false, 4⟩ 2
        [(1, ⟨"B", "sb", [], .ok⟩), (0, ⟨"A", "sa", [], .ok⟩)],
      e.completedCases ≤ 2 := by decide

/-- C4 counterexample: a run of two tasks in which one fails collects an
aggregate error and a one-entry partial manifest, but `manifest.Save` is
never executed - `ExportCases` returns at the `len(errs) > 0` check,
before the save, so the claim that such a run still persists the partial
manifest is false. -/
theorem manifest_unsaved_on_partial_failure :
    (Export.runExport ⟨false, false, 4⟩
        [(0, ⟨"A", "sa", [], .ok⟩), (1, ⟨"B", "sb", [], .fetchFail⟩)]).errs.length
        = 1 ∧
    (Export.runExport ⟨false, false, 4⟩
        [(0, ⟨"A", "sa", [], .ok⟩), (1, ⟨"B", "sb", [], .fetchFail⟩)]).manifestCases.length
        = 1 ∧
    (Export.runExport ⟨false, false, 4⟩
        [(0, ⟨"A", "sa", [], .ok⟩), (1, ⟨"B", "sb", [], .fetchFail⟩)]).manifestSaved
        = false := by decide

/-- C4 (amended): the manifest is persisted (exactly once, after all
tasks have terminated) precisely when no task failed; a run with at
least one failed task returns the partial manifest together with the
aggregate error but does not persist it. -/
theorem manifest_saved_iff_no_failures (opts : Export.ExpOptions)
    (completed : List (Nat × Export.ExportTask)) :
    (Export.runExport opts completed).manifestSaved = true ↔
      (Export.runExport opts completed).errs = [] := by
  unfold Export.runExport
  cases h : (completed.filterMap fun p => Export.taskError opts p.2).isEmpty
  · have h' : completed.filterMap (fun p => Export.taskError opts p.2) ≠ [] := by
      intro hnil
      rw [hnil] at h
      simp at h
    simp [h, h']
  · have h' : completed.filterMap (fun p => Export.taskError opts p.2) = [] :=
      List.isEmpty_iff.mp h
    simp [h, h']

/-- C5 counterexample: in combined mode `manifest.AddCase` is inside the
`if !e.opts.Combined` branch and therefore never runs, so a combined run
of N = 1 tasks with F = 0 failures produces a manifest with 0 entries,
not the claimed N - F = 1. -/
theorem combined_manifest_empty :
    (Export.runExport ⟨true, false, 4⟩
        [(0, ⟨"A", "sa", [], .ok⟩)]).errs.length = 0 ∧
    (Export.runExport ⟨true, false, 4⟩
        [(0, ⟨"A", "sa", [], .ok⟩)]).manifestCases.length ≠ 1 := by decide

/-- C5 (amended): in non-combined mode a run of N tasks of which F fail
yields exactly N - F manifest entries and an error count of F, for every
completion order; in combined mode the manifest never receives an entry
at all. -/
theorem manifest_counts (opts : Export.ExpOptions)
    (tasks : List Export.ExportTask)
    (completed : List (Nat × Export.ExportTask))
    (h : completed.Perm tasks.enum) :
    (opts.combined = false →
      (Export.runExport opts completed).manifestCases.length
          = tasks.length - tasks.countP (fun t => Export.taskFails opts t) ∧
      (Export.runExport opts completed).errs.length
          = tasks.countP (fun t => Export.taskFails opts t)) ∧
    (opts.combined = true →
      (Export.runExport opts completed).manifestCases = []) := by
  have hfails : completed.countP (fun p => Export.taskFails opts p.2)
      = tasks.countP (fun t => Export.taskFails opts t) := by
    rw [h.countP_eq]
    exact Export.countP_enumFrom (fun t => Export.taskFails opts t) 0 tasks
  have hok : completed.countP (fun p => !(Export.taskFails opts p.2))
      = tasks.countP (fun t => !(Export.taskFails opts t)) := by
    rw [h.countP_eq]
    exact Export.countP_enumFrom (fun t => !(Export.taskFails opts t)) 0 tasks
  have hlen : completed.length = tasks.length := by
    rw [h.length_eq, List.enum_length]
  constructor
  · intro hcomb
    constructor
    · rw [Export.manifestCases_length, hcomb]
      have hpart := Export.countP_add_countP_not
        (fun t => Export.taskFails opts t) tasks
      simp only [Bool.not_eq_true', if_neg] at *
      rw [if_neg (by simp [hcomb]), hok]
      omega
    · rw [Export.errs_length, hfails]
  · intro hcomb
    have hz := Export.manifestCases_length opts completed
    rw [if_pos hcomb] at hz
    exact List.length_eq_zero.mp hz

/-- Witness for C5 (amended): two tasks of which the second fails,
completing in reverse order, give one manifest entry (2 - 1) and one
error. -/
theorem manifest_counts_witness :
    (((⟨false, false, 4⟩ : Export.ExpOptions).combined = false →
      (Export.runExport ⟨false, false, 4⟩
          [(1, ⟨"B", "sb", [], .fetchFail⟩),
           (0, ⟨"A", "sa", [], .ok⟩)]).manifestCases.length
          = ([⟨"A", "sa", [], .ok⟩,
              ⟨"B", "sb", [], .fetchFail⟩] : List Export.ExportTask).length
            - ([⟨"A", "sa", [], .ok⟩,
                ⟨"B", "sb", [], .fetchFail⟩] : List Export.ExportTask).countP
                (fun t => Export.taskFails ⟨false, false, 4⟩ t) ∧
      (Export.runExport ⟨false, false, 4⟩
          [(1, ⟨"B", "sb", [], .fetchFail⟩),
           (0, ⟨"A", "sa", [], .ok⟩)]).errs.length
          = ([⟨"A", "sa", [], .ok⟩,
              ⟨"B", "sb", [], .fetchFail⟩] : List Export.ExportTask).countP
              (fun t => Export.taskFails ⟨false, false, 4⟩ t)) ∧
    ((⟨false, false, 4⟩ : Export.ExpOptions).combined = true →
      (Export.runExport ⟨false, false, 4⟩
          [(1, ⟨"B", "sb", [], .fetchFail⟩),
           (0, ⟨"A", "sa", [], .ok⟩)]).manifestCases = [])) :=
  manifest_counts ⟨false, false, 4⟩
    [⟨"A", "sa", [], .ok⟩, ⟨"B", "sb", [], .fetchFail⟩]
    [(1, ⟨"B", "sb", [], .fetchFail⟩), (0, ⟨"A", "sa", [], .ok⟩)]
    (by decide)

/-- C10: in a non-combined export task with include-attachments enabled,
an attachment whose download fails does not move the task to a failed
state: the task sends no error, its manifest entry is still added, the
recorded attachment count is the number of attachments listed for the
case (`len(export.Attachments)`), and the failed download surfaces only
as a stderr warning. -/
theorem attachment_failure_keeps_task_ok (opts : Export.ExpOptions)
    (t : Export.ExportTask) (hcomb : opts.combined = false)
    (hatt : opts.includeAttachments = true)
    (hok : t.outcome = Export.TaskOutcome.ok)
    (hfail : ∃ a ∈ t.attachments, a.downloadOk = false) :
    Export.taskFails opts t = false ∧
    Export.taskError opts t = none ∧
    Export.taskManifest opts t
      = some ⟨t.caseNumber, t.summary, t.attachments.length⟩ ∧
    Export.taskWarnings opts t ≠ [] := by
  have hf : Export.taskFails opts t = false := by
    unfold Export.taskFails
    rw [hok]
  refine ⟨hf, ?_, ?_, ?_⟩
  · unfold Export.taskError
    rw [hf]
    rfl
  · unfold Export.taskManifest
    rw [hf, hcomb]
    rfl
  · obtain ⟨a, hmem, hdl⟩ := hfail
    intro hnil
    unfold Export.taskWarnings at hnil
    rw [hf, hcomb, hatt] at hnil
    rw [if_neg (by simp)] at hnil
    rw [List.map_eq_nil] at hnil
    have ha : a ∈ t.attachments.filter fun a => !a.downloadOk :=
      List.mem_filter.mpr ⟨hmem, by simp [hdl]⟩
    rw [hnil] at ha
    exact List.not_mem_nil a ha

/-- Witness for C10: a task listing two attachments of which the first
fails to download still contributes a manifest entry recording 2
attachments, and only a warning. -/
theorem attachment_failure_keeps_task_ok_witness :
    Export.taskFails ⟨false, true, 4⟩
        ⟨"A", "sa", [⟨"f1", false⟩, ⟨"f2", true⟩], .ok⟩ = false ∧
    Export.taskError ⟨false, true, 4⟩
        ⟨"A", "sa", [⟨"f1", false⟩, ⟨"f2", true⟩], .ok⟩ = none ∧
    Export.taskManifest ⟨false, true, 4⟩
        ⟨"A", "sa", [⟨"f1", false⟩, ⟨"f2", true⟩], .ok⟩
      = some ⟨"A", "sa",
          ([⟨"f1", false⟩, ⟨"f2", true⟩] : List Export.AttachmentInfo).length⟩ ∧
    Export.taskWarnings ⟨false, true, 4⟩
        ⟨"A", "sa", [⟨"f1", false⟩, ⟨"f2", true⟩], .ok⟩ ≠ [] :=
  attachment_failure_keeps_task_ok ⟨false, true, 4⟩
    ⟨"A", "sa", [⟨"f1", false⟩, ⟨"f2", true⟩], .ok⟩
    rfl rfl rfl ⟨⟨"f1", false⟩, by decide, rfl⟩

namespace Tui

/-! ### Helper lemmas about the fetch controller -/

/-- A timer message whose case number no longer matches the pending id
is ignored. -/
theorem debounceTimeout_ne {s : FCState} {c : String}
    (h : c ≠ s.pendingFetch) : debounceTimeout s c = s := by
  unfold debounceTimeout
  rw [if_neg fun hc => h hc.1]

/-- The accounting invariant survives a timer message. -/
theorem fcInv_debounceTimeout {s : FCState} (c : String) (h : fcInv s) :
    fcInv (debounceTimeout s c) := by
  unfold debounceTimeout
  by_cases hc : c = s.pendingFetch ∧ c ≠ ""
  · rw [if_pos hc]
    unfold fcInv at *
    have hp : ¬ s.pendingFetch = "" := fun he => hc.2 (hc.1.trans he)
    rw [if_neg hp] at h
    simp
    omega
  · rw [if_neg hc]
    exact h

/-- The accounting invariant survives a selection change. -/
theorem fcInv_checkHighlight {s : FCState} (c : String) (h : fcInv s) :
    fcInv (checkHighlightChange s c).1 := by
  unfold checkHighlightChange
  by_cases h1 : c = s.highlightedCase
  · rw [if_pos h1]
    exact h
  · rw [if_neg h1]
    cases hl : lookupCache { s with highlightedCase := c }.detailCache c with
    | some b =>
        simp only [hl]
        unfold fcInv at *
        exact h
    | none =>
        simp only [hl]
        unfold fcInv at *
        simp only at *
        by_cases hc : c = "" <;> simp [hc] <;> split at h <;> omega

/-- The accounting invariant survives a fetch-result message. -/
theorem fcInv_caseDetailLoaded {s : FCState} (c : String) (ok : Bool)
    (b : Nat) (h : fcInv s) : fcInv (caseDetailLoaded s c ok b) := by
  unfold caseDetailLoaded
  cases ok with
  | false => unfold fcInv at *; exact h
  | true =>
      by_cases hc : c = s.highlightedCase <;>
        simp only [hc, if_pos, if_neg, reduceIte] <;>
        unfold fcInv at * <;> simpa using h

/-- The accounting invariant survives firing due timers. -/
theorem fcInv_fireDue :
    ∀ (timers : List (Nat × String)) (s : FCState) (t : Nat),
      fcInv s → fcInv (fireDue timers s t).1
  | [], _, _, h => h
  | (d, c) :: rest, s, t, h => by
    unfold fireDue
    by_cases hd : d < t
    · rw [if_pos hd]
      exact fcInv_fireDue rest _ t (fcInv_debounceTimeout c h)
    · rw [if_neg hd]
      exact h

/-- The accounting invariant survives the final timer flush. -/
theorem fcInv_flushTimers :
    ∀ (timers : List (Nat × String)) (s : FCState),
      fcInv s → fcInv (flushTimers timers s)
  | [], _, h => h
  | (_, c) :: rest, s, h =>
      fcInv_flushTimers rest _ (fcInv_debounceTimeout c h)

/-- The accounting invariant holds after processing any event
sequence. -/
theorem fcInv_runEvents :
    ∀ (evs : List (Nat × InEvent)) (s : FCState)
      (timers : List (Nat × String)),
      fcInv s → fcInv (runEvents evs s timers)
  | [], s, timers, h => fcInv_flushTimers timers s h
  | (t, ev) :: rest, s, timers, h => by
    unfold runEvents
    have h1 := fcInv_fireDue timers s t h
    cases ev with
    | select c =>
        have h2 := fcInv_checkHighlight c h1
        cases harm : (checkHighlightChange (fireDue timers s t).1 c).2 with
        | some armed =>
            simp only [harm]
            exact fcInv_runEvents rest _ _ h2
        | none =>
            simp only [harm]
            exact fcInv_runEvents rest _ _ h2
    | result c ok b =>
        exact fcInv_runEvents rest _ _ (fcInv_caseDetailLoaded c ok b h1)

end Tui

/-- C6: when a detail-fetch result for case id X arrives, it is stored
in the cache keyed by X; if X is no longer the highlighted (selected)
case, the displayed bundle is left untouched - a late result never
overwrites the current display. -/
theorem stale_result_cached_not_displayed (s : Tui.FCState) (c : String)
    (b : Nat) (h : c ≠ s.highlightedCase) :
    Tui.lookupCache (Tui.caseDetailLoaded s c true b).detailCache c
      = some b ∧
    (Tui.caseDetailLoaded s c true b).displayedCase = s.displayedCase ∧
    (Tui.caseDetailLoaded s c true b).displayedBundle = s.displayedBundle := by
  unfold Tui.caseDetailLoaded
  simp only [if_true, reduceIte]
  rw [if_neg h]
  refine ⟨?_, rfl, rfl⟩
  unfold Tui.lookupCache
  simp [List.find?]

/-- Witness for C6: a result for "X" arriving while "Y" is highlighted
is cached under "X" but leaves the display on "Y". -/
theorem stale_result_cached_not_displayed_witness :
    Tui.lookupCache
        (Tui.caseDetailLoaded ⟨"Y", "", false, [], "Y", 7, [], [], 0⟩
          "X" true 5).detailCache "X" = some 5 ∧
    (Tui.caseDetailLoaded ⟨"Y", "", false, [], "Y", 7, [], [], 0⟩
        "X" true 5).displayedCase
      = (⟨"Y", "", false, [], "Y", 7, [], [], 0⟩ : Tui.FCState).displayedCase ∧
    (Tui.caseDetailLoaded ⟨"Y", "", false, [], "Y", 7, [], [], 0⟩
        "X" true 5).displayedBundle
      = (⟨"Y", "", false, [], "Y", 7, [], [], 0⟩ : Tui.FCState).displayedBundle :=
  stale_result_cached_not_displayed ⟨"Y", "", false, [], "Y", 7, [], [], 0⟩
    "X" 5 (by decide)

/-- C9 counterexample: the controller has no in-flight bookkeeping, so
when the selection leaves "X" and returns to "X" while X's fetch is
still unanswered, the re-armed timer issues a second fetch for "X".
Trace: select X at 0 (timer due 500); at 600 the timer has fired and the
fetch for X is in flight; select Y at 600, select X again at 700; the
re-armed timer fires and issues a duplicate fetch, leaving two in-flight
fetches for the currently selected id "X". -/
theorem duplicate_inflight_fetch :
    (Tui.runFC [(0, .select "X"), (600, .select "Y"),
        (700, .select "X")]).highlightedCase = "X" ∧
    (Tui.runFC [(0, .select "X"), (600, .select "Y"),
        (700, .select "X")]).inFlight = ["X", "X"] ∧
    ¬ ((Tui.runFC [(0, .select "X"), (600, .select "Y"),
        (700, .select "X")]).inFlight.count
          ((Tui.runFC [(0, .select "X"), (600, .select "Y"),
            (700, .select "X")]).highlightedCase) ≤ 1) := by decide

/-- C9 (amended): each issued fetch consumes the armed pending id, so
across any input sequence the number of fetches issued never exceeds
the number of selection changes that armed the debounce timer; the code
enforces no per-id single-flight beyond this, so re-selecting an id
whose fetch is still in flight arms and fires again. -/
theorem fetches_bounded_by_armings (evs : List (Nat × Tui.InEvent)) :
    (Tui.runFC evs).fetchesIssued.length ≤ (Tui.runFC evs).armCount := by
  have h : Tui.fcInv (Tui.runFC evs) := by
    unfold Tui.runFC
    refine Tui.fcInv_runEvents evs Tui.initFC [] ?_
    unfold Tui.fcInv Tui.initFC
    simp
  unfold Tui.fcInv at h
  split at h <;> omega

namespace Tui

/-- A timer whose id matches the nonempty pending id issues the fetch. -/
theorem debounceTimeout_match {s : FCState} {c : String}
    (hc : c = s.pendingFetch) (hne : c ≠ "") :
    debounceTimeout s c =
      { s with pendingFetch := "", loadingDetail := true,
               fetchesIssued := s.fetchesIssued ++ [c],
               inFlight := s.inFlight ++ [c] } := by
  unfold debounceTimeout
  rw [if_pos ⟨hc, hne⟩]

/-- When no timer matching the pending id is due yet, firing delivers
only non-matching (hence ignored) messages: the state is unchanged and
the due timers are dropped from the queue. -/
theorem fireDue_eq (s : FCState) (t : Nat) :
    ∀ timers : List (Nat × String),
      (∀ dc ∈ timers, dc.2 = s.pendingFetch → ¬ dc.1 < t) →
      fireDue timers s t = (s, timers.dropWhile fun dc => decide (dc.1 < t))
  | [], _ => by simp [fireDue, List.dropWhile]
  | (d, c) :: rest, h => by
    unfold fireDue
    by_cases hd : d < t
    · rw [if_pos hd]
      have hc : c ≠ s.pendingFetch := fun he =>
        h (d, c) (List.mem_cons_self _ _) he hd
      rw [debounceTimeout_ne hc,
        fireDue_eq s t rest fun dc hm => h dc (List.mem_cons_of_mem _ hm)]
      simp [List.dropWhile_cons, hd]
    · rw [if_neg hd]
      simp [List.dropWhile_cons, hd]

/-- Dropping a prefix never reaches past a final element the predicate
keeps. -/
theorem dropWhile_append_single {α : Type} (p : α → Bool) (a : α)
    (ha : p a = false) :
    ∀ l : List α, (l ++ [a]).dropWhile p = l.dropWhile p ++ [a]
  | [] => by simp [List.dropWhile_cons, ha]
  | x :: l => by
    by_cases hx : p x
    · simp [List.dropWhile_cons, hx, dropWhile_append_single p a ha l]
    · simp [List.dropWhile_cons, hx]

/-- Flushing a timer queue whose ids are distinct and whose final timer
is the armed pending id ignores every earlier timer and issues exactly
the pending fetch. -/
theorem flushTimers_last_match :
    ∀ (pre : List (Nat × String)) (d : Nat) (s : FCState),
      (((pre ++ [(d, s.pendingFetch)]).map Prod.snd)).Nodup →
      s.pendingFetch ≠ "" →
      flushTimers (pre ++ [(d, s.pendingFetch)]) s =
        { s with pendingFetch := "", loadingDetail := true,
                 fetchesIssued := s.fetchesIssued ++ [s.pendingFetch],
                 inFlight := s.inFlight ++ [s.pendingFetch] }
  | [], d, s, _, hne => by
    show flushTimers [] (debounceTimeout s s.pendingFetch) = _
    rw [debounceTimeout_match rfl hne]
    rfl
  | (d0, c0) :: pre, d, s, hnodup, hne => by
    have hmem : s.pendingFetch ∈ (pre ++ [(d, s.pendingFetch)]).map Prod.snd := by
      simp
    rw [List.cons_append, List.map_cons] at hnodup
    have hc0 : c0 ≠ s.pendingFetch := by
      intro he
      exact (List.nodup_cons.mp hnodup).1 (he ▸ hmem)
    show flushTimers (pre ++ [(d, s.pendingFetch)]) (debounceTimeout s c0) = _
    rw [debounceTimeout_ne hc0]
    exact flushTimers_last_match pre d s (List.nodup_cons.mp hnodup).2 hne

end Tui

namespace Tui

/-- One event-loop step for a selection change that re-arms the debounce
timer, when the due timers leave the state unchanged. -/
theorem runEvents_select_step {s s2 : FCState} {tm2 : List (Nat × String)}
    (rest : List (Nat × InEvent)) (timers : List (Nat × String)) (t : Nat)
    (c armed : String)
    (hfire : fireDue timers s t = (s, tm2))
    (hchk : checkHighlightChange s c = (s2, some armed)) :
    runEvents ((t, InEvent.select c) :: rest) s timers
      = runEvents rest s2 (tm2 ++ [(t + debounceDelay, armed)]) := by
  have h1 : runEvents ((t, InEvent.select c) :: rest) s timers
      = match (checkHighlightChange (fireDue timers s t).1 c).2 with
        | some armed2 =>
            runEvents rest (checkHighlightChange (fireDue timers s t).1 c).1
              ((fireDue timers s t).2 ++ [(t + debounceDelay, armed2)])
        | none =>
            runEvents rest (checkHighlightChange (fireDue timers s t).1 c).1
              (fireDue timers s t).2 := rfl
  rw [h1]
  simp only [hfire, hchk]

/-- A selection change to an uncached id different from the highlighted
one records it as pending and arms the timer. -/
theorem checkHighlightChange_arm {s : FCState} {c : String}
    (hne : c ≠ s.highlightedCase) (hcache : s.detailCache = []) :
    checkHighlightChange s c
      = ({ s with
            highlightedCase := c
            pendingFetch := c
            armCount := s.armCount + 1 }, some c) := by
  unfold checkHighlightChange
  rw [if_neg hne]
  simp only [hcache]
  rfl

/-- Main induction for debounce coalescing: with the state holding the
most recent of a run of pairwise-distinct uncached selections, a
timer queue whose final entry is the pending id, and every following
selection arriving within the debounce delay of the previous one, the
run issues exactly one fetch - for the last id of the sequence. -/
theorem runEvents_distinct_aux :
    ∀ (rest : List (Nat × String)) (s : FCState) (pre : List (Nat × String))
      (lastT : Nat) (lastC : String),
      s.pendingFetch = lastC →
      s.highlightedCase = lastC →
      s.detailCache = [] →
      s.fetchesIssued = [] →
      lastC ≠ "" →
      ((pre ++ [(lastT + debounceDelay, lastC)]).map Prod.snd).Nodup →
      (∀ p ∈ rest,
        p.2 ∉ (pre ++ [(lastT + debounceDelay, lastC)]).map Prod.snd ∧
        p.2 ≠ "") →
      (rest.map Prod.snd).Nodup →
      gapsOk ((lastT, lastC) :: rest) = true →
      (runEvents (selEvents rest) s
          (pre ++ [(lastT + debounceDelay, lastC)])).fetchesIssued
        = [(((lastT, lastC) :: rest).getLast (List.cons_ne_nil _ _)).2]
  | [], s, pre, lastT, lastC, hpend, hhigh, hcache, hfetch, hne, hnodup,
      _, _, _ => by
    subst hpend
    show (flushTimers (pre ++ [(lastT + debounceDelay, s.pendingFetch)])
        s).fetchesIssued = _
    rw [flushTimers_last_match pre (lastT + debounceDelay) s hnodup hne]
    simp [hfetch]
  | (t, c) :: rest2, s, pre, lastT, lastC, hpend, hhigh, hcache, hfetch, hne,
      hnodup, hids, hrestnd, hgap => by
    obtain ⟨hcnot, hcne⟩ := hids (t, c) (List.mem_cons_self _ _)
    have hlastmem : lastC
        ∈ (pre ++ [(lastT + debounceDelay, lastC)]).map Prod.snd := by simp
    have hclast : c ≠ lastC := fun he => hcnot (he ▸ hlastmem)
    have hsplit : (decide (t < lastT + debounceDelay)
        && gapsOk ((t, c) :: rest2)) = true := hgap
    rw [Bool.and_eq_true] at hsplit
    have hgt : t < lastT + debounceDelay := of_decide_eq_true hsplit.1
    have hgap2 : gapsOk ((t, c) :: rest2) = true := hsplit.2
    have hcond : ∀ dc ∈ pre ++ [(lastT + debounceDelay, lastC)],
        dc.2 = s.pendingFetch → ¬ dc.1 < t := by
      intro dc hm he
      rw [hpend] at he
      have hlm : (lastT + debounceDelay, lastC)
          ∈ pre ++ [(lastT + debounceDelay, lastC)] := by simp
      have hdc : dc = (lastT + debounceDelay, lastC) :=
        List.inj_on_of_nodup_map hnodup hm hlm he
      rw [hdc]
      show ¬ lastT + debounceDelay < t
      omega
    have hkeep : (fun dc : Nat × String => decide (dc.1 < t))
        (lastT + debounceDelay, lastC) = false := by
      refine decide_eq_false ?_
      show ¬ lastT + debounceDelay < t
      omega
    have hfire := fireDue_eq s t (pre ++ [(lastT + debounceDelay, lastC)])
      hcond
    rw [dropWhile_append_single (fun dc : Nat × String => decide (dc.1 < t))
      (lastT + debounceDelay, lastC) hkeep pre] at hfire
    have hchk := checkHighlightChange_arm (s := s) (c := c)
      (by rw [hhigh]; exact hclast) hcache
    show (runEvents ((t, InEvent.select c) :: selEvents rest2) s
        (pre ++ [(lastT + debounceDelay, lastC)])).fetchesIssued = _
    rw [runEvents_select_step (selEvents rest2) _ t c c hfire hchk]
    have hsub : ((pre.dropWhile fun dc => decide (dc.1 < t))
          ++ [(lastT + debounceDelay, lastC)]).Sublist
        (pre ++ [(lastT + debounceDelay, lastC)]) :=
      (List.dropWhile_sublist _).append_right _
    have hmapsub := hsub.map Prod.snd
    have hnodupn := hnodup
    have hcnotn := hcnot
    simp only [List.map_append, List.map_cons, List.map_nil]
      at hmapsub hnodupn hcnotn
    have hrest2nd : (rest2.map Prod.snd).Nodup := by
      rw [List.map_cons] at hrestnd
      exact (List.nodup_cons.mp hrestnd).2
    have hcnotrest : c ∉ rest2.map Prod.snd := by
      rw [List.map_cons] at hrestnd
      exact (List.nodup_cons.mp hrestnd).1
    have hres := runEvents_distinct_aux rest2
      { s with
        highlightedCase := c
        pendingFetch := c
        armCount := s.armCount + 1 }
      ((pre.dropWhile fun dc => decide (dc.1 < t))
        ++ [(lastT + debounceDelay, lastC)]) t c
      rfl rfl hcache hfetch hcne
      (by
        simp only [List.map_append, List.map_cons, List.map_nil]
        refine List.nodup_append.mpr ⟨hnodupn.sublist hmapsub,
          List.nodup_singleton c, ?_⟩
        rw [List.disjoint_singleton]
        exact fun hm => hcnotn (hmapsub.subset hm))
      (by
        intro p hp
        obtain ⟨hnot, hne2⟩ := hids p (List.mem_cons_of_mem _ hp)
        simp only [List.map_append, List.map_cons, List.map_nil] at hnot
        refine ⟨?_, hne2⟩
        simp only [List.map_append, List.map_cons, List.map_nil]
        intro hm
        rcases List.mem_append.mp hm with hm1 | hm2
        · exact hnot (hmapsub.subset hm1)
        · have : p.2 = c := by simpa using hm2
          exact hcnotrest (this ▸ List.mem_map_of_mem Prod.snd hp)
        )
      hrest2nd hgap2
    rw [hres]
    rw [List.getLast_cons (List.cons_ne_nil _ _)]

end Tui

/-- C3 counterexample: the timer guard compares the fired timer's case
number with the pending id by value, so when an id recurs within a
fast sequence an old timer can match the re-armed pending id.  For
selections A, B, A, C at instants 0, 400, 450, 700 (every gap below the
500 ms delay, all ids uncached), A's first timer fires at 500 while the
pending id is again A, issuing a fetch for A; C's timer later issues a
second fetch - two fetches, the first not for the final id. -/
theorem debounce_repeat_two_fetches :
    Tui.gapsOk [(0, "A"), (400, "B"), (450, "A"), (700, "C")] = true ∧
    (Tui.runFC (Tui.selEvents
        [(0, "A"), (400, "B"), (450, "A"), (700, "C")])).fetchesIssued
      = ["A", "C"] ∧
    ¬ ((Tui.runFC (Tui.selEvents
        [(0, "A"), (400, "B"), (450, "A"), (700, "C")])).fetchesIssued.length
        ≤ 1) := by decide

/-- C3 (amended): for every sequence of selection changes to pairwise
distinct uncached case ids arriving faster than the 500 ms debounce
delay, exactly one detail fetch is issued, and it is for the final id of
the sequence; each earlier pending id is superseded before any of its
timers can match and triggers no fetch.  (Distinctness is necessary: see
the counterexample for a recurring id.) -/
theorem debounce_coalesces_distinct (sel : List (Nat × String))
    (hne : sel ≠ []) (hnodup : (sel.map Prod.snd).Nodup)
    (hid : ∀ p ∈ sel, p.2 ≠ "")
    (hgap : Tui.gapsOk sel = true) :
    (Tui.runFC (Tui.selEvents sel)).fetchesIssued = [(sel.getLast hne).2] := by
  cases sel with
  | nil => exact absurd rfl hne
  | cons p rest =>
    obtain ⟨t, c⟩ := p
    have hcne : c ≠ "" := (hid (t, c) (List.mem_cons_self _ _))
    have hnodup2 : ((t, c).2 :: rest.map Prod.snd).Nodup := by
      rw [List.map_cons] at hnodup
      exact hnodup
    have hrestnd : (rest.map Prod.snd).Nodup :=
      (List.nodup_cons.mp hnodup2).2
    have hcnotrest : c ∉ rest.map Prod.snd :=
      (List.nodup_cons.mp hnodup2).1
    have hchk := Tui.checkHighlightChange_arm (s := Tui.initFC) (c := c)
      hcne rfl
    show (Tui.runEvents ((t, Tui.InEvent.select c) :: Tui.selEvents rest)
        Tui.initFC []).fetchesIssued = _
    rw [Tui.runEvents_select_step (Tui.selEvents rest) [] t c c rfl hchk]
    have hres := Tui.runEvents_distinct_aux rest
      { Tui.initFC with
        highlightedCase := c
        pendingFetch := c
        armCount := Tui.initFC.armCount + 1 }
      [] t c rfl rfl rfl rfl hcne
      (by simp)
      (by
        intro p hp
        refine ⟨?_, hid p (List.mem_cons_of_mem _ hp)⟩
        simp only [List.nil_append, List.map_cons, List.map_nil]
        intro hm
        have : p.2 = c := by simpa using hm
        exact hcnotrest (this ▸ List.mem_map_of_mem Prod.snd hp))
      hrestnd hgap
    exact hres

/-- Witness for C3 (amended): selections A, B, C at 0, 100, 200 ms issue
exactly one fetch, for C. -/
theorem debounce_coalesces_distinct_witness :
    (Tui.runFC (Tui.selEvents [(0, "A"), (100, "B"), (200, "C")])).fetchesIssued
      = [(([(0, "A"), (100, "B"), (200, "C")] : List (Nat × String)).getLast
          (by decide)).2] :=
  debounce_coalesces_distinct [(0, "A"), (100, "B"), (200, "C")]
    (by decide) (by decide) (by decide) (by decide)

namespace Loader

/-! ### Helper lemmas about the list loader -/

/-- Taking as many elements as a take produced reproduces that take. -/
theorem take_own_length {α : Type} (l : List α) (k : Nat) :
    l.take ((l.take k).length) = l.take k := by
  rw [List.length_take]
  rcases Nat.le_total k l.length with h | h
  · rw [Nat.min_eq_left h]
  · rw [Nat.min_eq_right h, List.take_length, List.take_of_length_le h]

/-- The loaded list is a permutation of the server prefix of its own
length, and the recorded total is the server's count, after the initial
page load. -/
theorem initLoad_inv (server : List LCase) :
    (initLoad server).cases.Perm
      (server.take (initLoad server).cases.length) ∧
    (initLoad server).totalCases = server.length := by
  unfold initLoad casesLoaded
  constructor
  · have hperm : (sortCases (server.take casePageSize)).Perm
        (server.take casePageSize) := List.perm_insertionSort _ _
    have hlen : (sortCases (server.take casePageSize)).length
        = (server.take casePageSize).length := hperm.length_eq
    simp only [Bool.false_eq_true, if_false]
    rw [hlen, take_own_length]
    exact hperm
  · simp only [Bool.false_eq_true, if_false, Bool.not_false, if_true]
    by_cases h : 0 < server.length
    · rw [if_pos h]
    · rw [if_neg h]
      have hz : server.length = 0 := by omega
      have : server = [] := List.eq_nil_of_length_eq_zero hz
      subst this
      rfl

/-- One `maybeLoadMoreCases` call (with its page response) preserves the
prefix invariant. -/
theorem loadStep_inv (server : List LCase) (s : LoaderState)
    (offset visible : Nat)
    (h1 : s.cases.Perm (server.take s.cases.length))
    (h2 : s.totalCases = server.length) :
    (loadStep server s offset visible).cases.Perm
      (server.take (loadStep server s offset visible).cases.length) ∧
    (loadStep server s offset visible).totalCases = server.length := by
  unfold loadStep maybeLoadMore
  by_cases hl : s.loadingCases
  · simp only [hl, if_true, reduceIte]
    exact ⟨h1, h2⟩
  · by_cases hc : s.totalCases = 0 ∨ s.totalCases ≤ s.cases.length
    · simp only [hl, hc, Bool.false_eq_true, if_false, if_true, reduceIte]
      exact ⟨h1, h2⟩
    · by_cases hnear : s.cases.length - 1 ≤ offset + visible
      · simp only [hl, hc, hnear, Bool.false_eq_true, if_false, if_true,
          reduceIte]
        unfold casesLoaded
        simp only [if_true, Bool.not_true, Bool.false_eq_true, if_false,
          reduceIte]
        have hpos : 0 < server.length := by
          rcases Nat.eq_zero_or_pos server.length with hz | hp
          · exact absurd (Or.inl (h2.trans hz)) hc
          · exact hp
        constructor
        · have hperm : (sortCases (s.cases
              ++ (server.drop s.cases.length).take casePageSize)).Perm
              (s.cases ++ (server.drop s.cases.length).take casePageSize) :=
            List.perm_insertionSort _ _
          have happ : (s.cases
              ++ (server.drop s.cases.length).take casePageSize).Perm
              (server.take s.cases.length
                ++ (server.drop s.cases.length).take casePageSize) :=
            h1.append_right _
          have htake : server.take (s.cases.length
                + ((server.drop s.cases.length).take casePageSize).length)
              = server.take s.cases.length
                ++ (server.drop s.cases.length).take casePageSize := by
            rw [List.take_add, take_own_length]
          have hlen : (sortCases (s.cases
              ++ (server.drop s.cases.length).take casePageSize)).length
              = s.cases.length
                + ((server.drop s.cases.length).take casePageSize).length := by
            rw [hperm.length_eq, List.length_append]
          rw [hlen, htake]
          exact hperm.trans happ
        · rw [if_pos hpos]
      · simp only [hl, hc, hnear, Bool.false_eq_true, if_false, if_true,
          reduceIte]
        exact ⟨h1, h2⟩

/-- The prefix invariant holds after the initial load and any sequence
of `maybeLoadMoreCases` calls. -/
theorem foldSteps_inv (server : List LCase) :
    ∀ (steps : List (Nat × Nat)) (s : LoaderState),
      s.cases.Perm (server.take s.cases.length) →
      s.totalCases = server.length →
      (steps.foldl (fun s p => loadStep server s p.1 p.2) s).cases.Perm
        (server.take
          (steps.foldl (fun s p => loadStep server s p.1 p.2) s).cases.length)
      ∧ (steps.foldl (fun s p => loadStep server s p.1 p.2) s).totalCases
          = server.length
  | [], _, h1, h2 => ⟨h1, h2⟩
  | p :: steps, s, h1, h2 => by
    obtain ⟨h1s, h2s⟩ := loadStep_inv server s p.1 p.2 h1 h2
    exact foldSteps_inv server steps _ h1s h2s

end Loader

/-- C7 counterexample: `sortCases` runs on every `casesLoadedMsg`, not
only on explicit user sort actions, so a freshly loaded list is
re-sorted locally (last-modified descending, the default).  For a server
returning [A (modified 1), B (modified 2)] in that order, the loaded
list displays [B, A], not the server-provided order [A, B], although no
user sort action occurred. -/
theorem loader_resorts_locally :
    ((Loader.runLoader [⟨"A", 1⟩, ⟨"B", 2⟩] []).cases.map
        Loader.LCase.caseNumber) = ["B", "A"] ∧
    ((([⟨"A", 1⟩, ⟨"B", 2⟩] : List Loader.LCase).take
        (Loader.runLoader [⟨"A", 1⟩, ⟨"B", 2⟩] []).cases.length).map
        Loader.LCase.caseNumber) = ["A", "B"] ∧
    (["B", "A"] : List String) ≠ ["A", "B"] := by decide

/-- C7 (amended): after the initial load and any sequence of
`maybeLoadMoreCases` calls under an unchanged filter, the loaded items
are exactly the contiguous prefix [0, len) of the server's result set -
each identifier appears at most once, with no gaps - but as a list they
are kept sorted by the active sort field (last-modified descending by
default), which the `casesLoadedMsg` handler re-applies after every
page load, not only on explicit user sort actions. -/
theorem loader_prefix_invariant (server : List Loader.LCase)
    (steps : List (Nat × Nat))
    (hnodup : (server.map Loader.LCase.caseNumber).Nodup) :
    (Loader.runLoader server steps).cases.Perm
      (server.take (Loader.runLoader server steps).cases.length) ∧
    ((Loader.runLoader server steps).cases.map
        Loader.LCase.caseNumber).Nodup ∧
    (Loader.runLoader server steps).cases.length ≤ server.length := by
  have hinit := Loader.initLoad_inv server
  have hres := Loader.foldSteps_inv server steps (Loader.initLoad server)
    hinit.1 hinit.2
  obtain ⟨hperm, -⟩ := hres
  refine ⟨hperm, ?_, ?_⟩
  · have hsub : ((server.take
        (Loader.runLoader server steps).cases.length).map
          Loader.LCase.caseNumber).Sublist
        (server.map Loader.LCase.caseNumber) :=
      (List.take_sublist _ _).map _
    exact (hperm.map Loader.LCase.caseNumber).symm.nodup
      (hnodup.sublist hsub)
  · have hlen := hperm.length_eq
    rw [List.length_take] at hlen
    exact hlen ▸ Nat.min_le_right _ _

/-- Witness for C7 (amended): a two-case server with distinct ids loaded
in full satisfies the prefix, no-duplicate and length bounds. -/
theorem loader_prefix_invariant_witness :
    (Loader.runLoader [⟨"A", 1⟩, ⟨"B", 2⟩] [(0, 5)]).cases.Perm
      (([⟨"A", 1⟩, ⟨"B", 2⟩] : List Loader.LCase).take
        (Loader.runLoader [⟨"A", 1⟩, ⟨"B", 2⟩] [(0, 5)]).cases.length) ∧
    ((Loader.runLoader [⟨"A", 1⟩, ⟨"B", 2⟩] [(0, 5)]).cases.map
        Loader.LCase.caseNumber).Nodup ∧
    (Loader.runLoader [⟨"A", 1⟩, ⟨"B", 2⟩] [(0, 5)]).cases.length
      ≤ ([⟨"A", 1⟩, ⟨"B", 2⟩] : List Loader.LCase).length :=
  loader_prefix_invariant [⟨"A", 1⟩, ⟨"B", 2⟩] [(0, 5)] (by decide)
